import Mathlib

set_option maxHeartbeats 1000000

/-! Shallow embedding of the VQA data pipeline of `main.py`: the text
normalizer `process_text`, the `VQADataset` vocabulary construction and
`__getitem__`, the `statistics.mode` consensus label, and the
`VQA_criterion` scorer.  Strings are modelled by their character lists;
the regular-expression character classes (`\w`, `\s`, `\d`) and
`str.lower` are modelled on their ASCII fragment. -/

namespace VQA

/-- Python regex `\w` (ASCII fragment): letters, digits, underscore. -/
def isWordChar (c : Char) : Bool := c.isAlpha || c.isDigit || c == '_'

/-- Python regex `\s` (ASCII fragment): space, tab, newline, carriage
return, vertical tab, form feed. -/
def isSpaceChar (c : Char) : Bool :=
  c == ' ' || c == '\t' || c == '\n' || c == '\r' || c == '\x0b' || c == '\x0c'

/-- Whether an optional character is a digit (used for the regex
lookaround `(?<!\d)` / `(?!\d)`, which fails at the string edges). -/
def digitOpt : Option Char → Bool
  | some c => c.isDigit
  | none => false

/-- Recursion worker for Python `str.replace`.  The counter `skip`
holds the number of characters of a just-matched occurrence that still
have to be consumed before scanning resumes (the scan is left to right
and non-overlapping). -/
def replaceGo (p r : List Char) : ℕ → List Char → List Char
  | _, [] => []
  | skip + 1, _ :: t => replaceGo p r skip t
  | 0, c :: t =>
    if p ≠ [] ∧ p.isPrefixOf (c :: t) then
      r ++ replaceGo p r (p.length - 1) t
    else
      c :: replaceGo p r 0 t

/-- Python `str.replace pat rep`: replace every occurrence of `pat`,
scanning left to right without overlap.  The patterns of `main.py` are
all nonempty; for an empty pattern this model returns the string
unchanged. -/
def replaceAll (p r : List Char) (s : List Char) : List Char :=
  replaceGo p r 0 s

/-- The `for word, digit in ...: text = text.replace(word, digit)` loops
of `process_text`: sequential substring replacement in dict order. -/
def applyReplacements (ps : List (String × String)) (s : List Char) : List Char :=
  ps.foldl (fun t pr => replaceAll pr.1.data pr.2.data t) s

/-- The `num_word_to_digit` dict of `main.py`, in insertion order. -/
def num_word_to_digit : List (String × String) :=
  [("zero", "0"), ("one", "1"), ("two", "2"), ("three", "3"), ("four", "4"),
   ("five", "5"), ("six", "6"), ("seven", "7"), ("eight", "8"), ("nine", "9"),
   ("ten", "10")]

/-- The `contractions` dict of `main.py`, in insertion order. -/
def contractions : List (String × String) :=
  [("dont", "don't"), ("isnt", "isn't"), ("arent", "aren't"), ("wont", "won't"),
   ("cant", "can't"), ("wouldnt", "wouldn't"), ("couldnt", "couldn't")]

/-- Worker for `re.sub(r'(?<!\d)\.(?!\d)', '', text)`: `prev` is the
character of the original string just before the scan position. -/
def periodGo (prev : Option Char) : List Char → List Char
  | [] => []
  | c :: t =>
    if c == '.' && !digitOpt prev && !digitOpt t.head? then periodGo (some c) t
    else c :: periodGo (some c) t

/-- `re.sub(r'(?<!\d)\.(?!\d)', '', text)`: delete every period that has
no digit immediately before it and no digit immediately after it. -/
def periodStep (s : List Char) : List Char := periodGo none s

/-- Whether a maximal word-character run is one of the articles removed
by `re.sub(r'\b(a|an|the)\b', '', text)`. -/
def isArticleRun (run : List Char) : Bool :=
  run == "a".data || run == "an".data || run == "the".data

/-- Recursion worker for `re.sub(r'\b(a|an|the)\b', '', text)`: `acc`
accumulates the current maximal run of word characters (the character
before `acc`, if any, is a non-word character).  When the run ends it is
deleted if it is an article, kept otherwise. -/
def articleGo2 (acc : List Char) : List Char → List Char
  | [] => if isArticleRun acc then [] else acc
  | c :: t =>
    if isWordChar c then articleGo2 (acc ++ [c]) t
    else (if isArticleRun acc then [] else acc) ++ c :: articleGo2 [] t

/-- `re.sub(r'\b(a|an|the)\b', '', text)`: a match is a maximal run of
word characters equal to `a`, `an` or `the` (both `\b`s force the run to
be maximal); such runs are deleted, everything else is kept. -/
def articleGo (s : List Char) : List Char := articleGo2 [] s

/-- The character class `[\w\s':]` kept by the punctuation step. -/
def isKeptChar (c : Char) : Bool :=
  isWordChar c || isSpaceChar c || c == '\'' || c == ':'

/-- `re.sub(r"[^\w\s':]", ' ', text)`: every character that is not a
word character, whitespace, apostrophe or colon becomes one space. -/
def punctStep (s : List Char) : List Char :=
  s.map (fun c => if isKeptChar c then c else ' ')

/-- Recursion worker for `re.sub(r'\s+,', ',', text)`: `pend` holds the
current still-unemitted whitespace run; it is dropped when a comma
follows it and emitted unchanged otherwise. -/
def commaGo2 (pend : List Char) : List Char → List Char
  | [] => pend
  | c :: t =>
    if isSpaceChar c then commaGo2 (pend ++ [c]) t
    else if c == ',' then ',' :: commaGo2 [] t
    else pend ++ c :: commaGo2 [] t

/-- `re.sub(r'\s+,', ',', text)`: a maximal whitespace run immediately
followed by a comma is deleted (the comma is kept); any other
whitespace run is kept. -/
def commaGo (s : List Char) : List Char := commaGo2 [] s

/-- Recursion worker for `re.sub(r'\s+', ' ', text)`: the flag `inRun`
records whether the scan is inside a whitespace run whose single
replacement space has already been emitted. -/
def spaceGo2 (inRun : Bool) : List Char → List Char
  | [] => []
  | c :: t =>
    if isSpaceChar c then
      (if inRun then spaceGo2 true t else ' ' :: spaceGo2 true t)
    else c :: spaceGo2 false t

/-- `re.sub(r'\s+', ' ', text)`: each maximal whitespace run becomes one
space. -/
def spaceGo (s : List Char) : List Char := spaceGo2 false s

/-- Python `str.strip()` (ASCII whitespace fragment). -/
def pyStrip (s : List Char) : List Char :=
  ((s.dropWhile isSpaceChar).reverse.dropWhile isSpaceChar).reverse

/-- The last line of `process_text`: collapse whitespace runs, then
strip. -/
def spaceStep (s : List Char) : List Char := pyStrip (spaceGo s)

/-- `text.lower()` (ASCII fragment: `Char.toLower` maps `A`-`Z`). -/
def lowerStep (s : List Char) : List Char := s.map Char.toLower

/-- The body of `process_text` on character lists, steps applied in
source order: lowercase, number words, periods, articles, contractions,
punctuation, whitespace-before-comma, whitespace collapse + strip. -/
def process_list (s : List Char) : List Char :=
  spaceStep (commaGo (punctStep (applyReplacements contractions
    (articleGo (periodStep (applyReplacements num_word_to_digit (lowerStep s)))))))

/-- `process_text` of `main.py` (lines 25-61). -/
def process_text (s : String) : String := ⟨process_list s.data⟩

/-! ## The scorer `VQA_criterion` (lines 157-172) -/

/-- The failure of `VQA_criterion` on an empty batch: the final
`total_acc / len(batch_pred)` raises `ZeroDivisionError`, the spec's
`InvalidArgument` class. -/
inductive ScoreError where
  | invalidArgument
deriving DecidableEq

/-- The inner loop of `VQA_criterion`: `num_match` = number of indices
`j ≠ i` with `pred == answers[j]`. -/
def numMatch (pred : ℕ) (answers : List ℕ) (i : ℕ) : ℕ :=
  ((List.range answers.length).filter (fun j => j != i && answers.getD j 0 == pred)).length

/-- The middle loop of `VQA_criterion`: `acc` after the `for i` loop,
the sum over `i` of `min(num_match / 3, 1)`. -/
def sampleAcc (pred : ℕ) (answers : List ℕ) : ℚ :=
  ((List.range answers.length).map (fun i => min ((numMatch pred answers i : ℚ) / 3) 1)).sum

/-- The per-sample contribution `acc / 10` added to `total_acc`. -/
def sampleScore (pred : ℕ) (answers : List ℕ) : ℚ := sampleAcc pred answers / 10

/-- `VQA_criterion(batch_pred, batch_answers)` (lines 157-172): mean
over the zipped batch of `acc / 10`; on an empty `batch_pred` the final
division raises (`ZeroDivisionError`, modelled as `invalidArgument`). -/
def VQA_criterion (batch_pred : List ℕ) (batch_answers : List (List ℕ)) :
    Except ScoreError ℚ :=
  if batch_pred.length = 0 then .error .invalidArgument
  else .ok (((batch_pred.zip batch_answers).map (fun pa => sampleScore pa.1 pa.2)).sum
            / batch_pred.length)

/-! ## The consensus label `mode(answers)` (line 144) -/

/-- The largest multiplicity occurring in `l`. -/
def maxCount (l : List ℕ) : ℕ := (l.map (fun x => l.count x)).foldr max 0

/-- Python `statistics.mode(l)`: `Counter(l).most_common(1)[0][0]`, the
first element in order of appearance whose multiplicity is maximal
(`Counter` iterates in first-insertion order and `most_common` sorts
stably by descending count).  `none` models the `StatisticsError` on an
empty list. -/
def pyMode (l : List ℕ) : Option ℕ := l.find? (fun x => l.count x == maxCount l)

/-! ## The dataset `VQADataset` (lines 65-152) -/

/-- One record of the input JSON: an image path, a question string, and
the raw annotator answers (the `answer["answer"]` fields in order). -/
structure Sample where
  image : String
  question : String
  answers : List String
deriving DecidableEq

/-- The state of a `VQADataset` after `__init__` (the transform and the
image bytes are outside the model). -/
structure VQADataset where
  image_dir : String
  df : List Sample
  answer : Bool
  question2idx : List (String × ℕ)
  answer2idx : List (String × ℕ)
  idx2question : List (ℕ × String)
  idx2answer : List (ℕ × String)
deriving DecidableEq

/-- One step of dictionary construction: `if word not in d: d[word] = len(d)`. -/
def addWord (m : List (String × ℕ)) (w : String) : List (String × ℕ) :=
  if (m.lookup w).isSome then m else m ++ [(w, m.length)]

/-- A word-to-id dictionary built by inserting the words in order,
first-seen-wins, ids assigned by insertion order. -/
def buildIndex (ws : List String) : List (String × ℕ) := ws.foldl addWord []

/-- `{v: k for k, v in d.items()}`: the inverse dictionary (the values
of a built index are distinct, so no entry is overwritten). -/
def invertIndex (m : List (String × ℕ)) : List (ℕ × String) :=
  m.map (fun p => (p.2, p.1))

/-- The word sequence inserted into `question2idx`: each question is
normalized and split on single spaces (`split(" ")`). -/
def questionWords (df : List Sample) : List String :=
  (df.map (fun s => (process_text s.question).splitOn " ")).flatten

/-- The phrase sequence inserted into `answer2idx`: each raw answer
normalized whole (not tokenized). -/
def answerPhrases (df : List Sample) : List String :=
  (df.map (fun s => s.answers.map process_text)).flatten

/-- `VQADataset.__init__` (lines 66-95): build the question dictionary
always, the answer dictionary only when `answer=True`, and their
inverses. -/
def mkDataset (image_dir : String) (df : List Sample) (answer : Bool) : VQADataset :=
  let q2i := buildIndex (questionWords df)
  let a2i := if answer then buildIndex (answerPhrases df) else []
  { image_dir := image_dir, df := df, answer := answer,
    question2idx := q2i, answer2idx := a2i,
    idx2question := invertIndex q2i,
    idx2answer := if answer then invertIndex a2i else [] }

/-- `VQADataset.update_dict` (lines 97-109): replace this store's four
dictionaries by the training store's. -/
def update_dict (ds train : VQADataset) : VQADataset :=
  { ds with question2idx := train.question2idx, answer2idx := train.answer2idx,
            idx2question := train.idx2question, idx2answer := train.idx2answer }

/-- What `__getitem__` returns (the image tensor is modelled by the path
string built on line 131; `torch.Tensor(answers)` by the id list). -/
inductive Item where
  | withAnswer (image question : String) (answers : List ℕ) (mode_answer : ℕ)
  | noAnswer (image question : String)
deriving DecidableEq

/-- The list comprehension of line 143:
`[self.answer2idx[process_text(answer["answer"])] for answer in ...]`.
`none` models the `KeyError` (a `LookupError`) raised by the dictionary
lookup when a normalized answer is not a key. -/
def lookupAnswers (a2i : List (String × ℕ)) : List String → Option (List ℕ)
  | [] => some []
  | a :: rest =>
    match a2i.lookup (process_text a), lookupAnswers a2i rest with
    | some id, some ids => some (id :: ids)
    | _, _ => none

/-- `VQADataset.__getitem__` (lines 111-149).  The question component is
`self.df["question"][idx]` (line 135), taken raw.  `none` models the
exceptions (index out of range, `KeyError` from line 143,
`StatisticsError` from `mode([])`). -/
def getItem (ds : VQADataset) (idx : ℕ) : Option Item :=
  match ds.df[idx]? with
  | none => none
  | some s =>
    if ds.answer then
      match lookupAnswers ds.answer2idx s.answers with
      | none => none
      | some ids =>
        match pyMode ids with
        | none => none
        | some m => some (.withAnswer (ds.image_dir ++ "/" ++ s.image) s.question ids m)
    else some (.noAnswer (ds.image_dir ++ "/" ++ s.image) s.question)

/-- The question component of a returned item. -/
def itemQuestion : Item → String
  | .withAnswer _ q _ _ => q
  | .noAnswer _ q => q

/-- Adjacent characters are never both whitespace (the shape of text
whose whitespace has been collapsed). -/
def noTwoSpaces (a b : Char) : Prop := ¬(isSpaceChar a = true ∧ isSpaceChar b = true)

/-- The no-two-adjacent-spaces shape, packaged as an irreducible
definition so that elaboration never unfolds it at large arguments. -/
@[irreducible] def Collapsed (l : List Char) : Prop := List.Chain' noTwoSpaces l

end VQA

namespace VQA

/-! ## The scorer on the spec's worked example (claims C1, C4, C10) -/

/-- Helper: the value of the scorer on the spec's worked example.  Each
of the three annotators equal to the prediction 5 sees 2 other matches;
each of the seven annotators equal to 2 still sees the 3 annotators
matching the prediction, hence contributes `min(3/3, 1) = 1`. -/
theorem criterion_worked_example :
    VQA_criterion [5] [[5, 5, 5, 2, 2, 2, 2, 2, 2, 2]] = .ok (9 / 10) := by
  have h0 : numMatch 5 [5, 5, 5, 2, 2, 2, 2, 2, 2, 2] 0 = 2 := rfl
  have h1 : numMatch 5 [5, 5, 5, 2, 2, 2, 2, 2, 2, 2] 1 = 2 := rfl
  have h2 : numMatch 5 [5, 5, 5, 2, 2, 2, 2, 2, 2, 2] 2 = 2 := rfl
  have h3 : ∀ i ∈ [3, 4, 5, 6, 7, 8, 9], numMatch 5 [5, 5, 5, 2, 2, 2, 2, 2, 2, 2] i = 3 := by
    decide
  have hacc : sampleAcc 5 [5, 5, 5, 2, 2, 2, 2, 2, 2, 2] = 9 := by
    have hr : List.range (List.length [5, 5, 5, 2, 2, 2, 2, 2, 2, 2]) =
        [0, 1, 2, 3, 4, 5, 6, 7, 8, 9] := rfl
    rw [sampleAcc, hr]
    simp only [List.map_cons, List.map_nil, List.sum_cons, List.sum_nil,
      h0, h1, h2, h3 3 (by decide), h3 4 (by decide), h3 5 (by decide), h3 6 (by decide),
      h3 7 (by decide), h3 8 (by decide), h3 9 (by decide)]
    norm_num [min_def]
  simp only [VQA_criterion, List.zip, List.zipWith, List.map_cons, List.map_nil,
    List.sum_cons, List.sum_nil, sampleScore, hacc]
  norm_num

/-- Helper: with 11 annotator answers all equal to the prediction, every
one of the 11 leave-one-out views contributes `min(10/3, 1) = 1`, and
the per-sample sum is still divided by the constant 10. -/
theorem criterion_replicate_eleven :
    VQA_criterion [5] [List.replicate 11 5] = .ok (11 / 10) := by
  have h3 : ∀ i ∈ List.range 11, numMatch 5 (List.replicate 11 5) i = 10 := by decide
  have hacc : sampleAcc 5 (List.replicate 11 5) = 11 := by
    have hr : List.range (List.length (List.replicate 11 5)) =
        [0, 1, 2, 3, 4, 5, 6, 7, 8, 9, 10] := rfl
    rw [sampleAcc, hr]
    simp only [List.map_cons, List.map_nil, List.sum_cons, List.sum_nil,
      h3 0 (by decide), h3 1 (by decide), h3 2 (by decide), h3 3 (by decide),
      h3 4 (by decide), h3 5 (by decide), h3 6 (by decide), h3 7 (by decide),
      h3 8 (by decide), h3 9 (by decide), h3 10 (by decide)]
    norm_num [min_def]
  simp only [VQA_criterion, List.zip, List.zipWith, List.map_cons, List.map_nil,
    List.sum_cons, List.sum_nil, sampleScore, hacc]
  norm_num

/-- C1 counterexample: on the spec's worked example (prediction 5,
annotators `[5,5,5,2,2,2,2,2,2,2]`) the scorer returns `9/10`, not
approximately `0.2 = 2/10`: the two values differ by `7/10 > 1/2`. -/
theorem C1_worked_example_score_is_not_point_two :
    VQA_criterion [5] [[5, 5, 5, 2, 2, 2, 2, 2, 2, 2]] = .ok (9 / 10) ∧
    (9 : ℚ) / 10 ≠ 2 / 10 ∧ (1 : ℚ) / 2 < 9 / 10 - 2 / 10 :=
  ⟨criterion_worked_example, by norm_num, by norm_num⟩

/-- C1 (amended): for prediction id 5 and the 10 annotator answer ids
`[5,5,5,2,2,2,2,2,2,2]`, the consensus score computed by the scorer on a
single-element batch equals `0.9`: the three annotators equal to 5 each
contribute `min(2/3,1)`, and the seven annotators equal to 2 each
contribute `min(3/3,1) = 1`, because three of the *other* annotators
match the prediction. -/
theorem C1_worked_example_score :
    VQA_criterion [5] [[5, 5, 5, 2, 2, 2, 2, 2, 2, 2]] =
      .ok ((3 * min ((2 : ℚ) / 3) 1 + 7 * min ((3 : ℚ) / 3) 1) / 10) := by
  rw [criterion_worked_example]
  norm_num [min_def]

/-- C4: an empty prediction batch makes the scorer fail (the final
division `total_acc / len(batch_pred)` raises `ZeroDivisionError`,
the spec's `InvalidArgument` class) instead of returning a value. -/
theorem C4_empty_batch_fails (batch_answers : List (List ℕ)) :
    VQA_criterion [] batch_answers = .error .invalidArgument := rfl

/-- C10: the per-sample score divides the per-annotator sum by the
constant 10, not by the number of annotator answers; it is bounded by
`[0,1]` when there are exactly 10 answers, and a sample with 11 answers
all equal to the prediction scores `11/10 > 1`. -/
theorem C10_division_by_constant_ten :
    (∀ (pred : ℕ) (answers : List ℕ), answers.length = 10 →
      0 ≤ sampleScore pred answers ∧ sampleScore pred answers ≤ 1) ∧
    VQA_criterion [5] [List.replicate 11 5] = .ok (11 / 10) ∧ (1 : ℚ) < 11 / 10 := by
  refine ⟨?_, criterion_replicate_eleven, by norm_num⟩
  intro pred answers hlen
  have hterm : ∀ x ∈ (List.range answers.length).map
      (fun i => min ((numMatch pred answers i : ℚ) / 3) 1), 0 ≤ x ∧ x ≤ 1 := by
    intro x hx
    simp only [List.mem_map] at hx
    obtain ⟨i, _, rfl⟩ := hx
    refine ⟨le_min (div_nonneg (Nat.cast_nonneg _) (by norm_num)) zero_le_one, min_le_right _ _⟩
  constructor
  · have h0 : 0 ≤ sampleAcc pred answers :=
      List.sum_nonneg (fun x hx => (hterm x hx).1)
    exact div_nonneg h0 (by norm_num)
  · have h1 : sampleAcc pred answers ≤ 10 := by
      have hb := List.sum_le_card_nsmul
        ((List.range answers.length).map (fun i => min ((numMatch pred answers i : ℚ) / 3) 1))
        1 (fun x hx => (hterm x hx).2)
      rw [List.length_map, List.length_range] at hb
      rw [sampleAcc]
      exact hb.trans (by rw [hlen]; simp)
    rw [sampleScore, div_le_one (by norm_num)]
    exact h1

end VQA

namespace VQA

/-! ## The consensus-label tie-break (claim C2) -/

/-- Helper: every member of a list is bounded by its `foldr max 0`. -/
theorem le_foldr_max : ∀ {L : List ℕ} {x : ℕ}, x ∈ L → x ≤ L.foldr max 0 := by
  intro L
  induction L with
  | nil => intro x h; cases h
  | cons a t ih =>
    intro x h
    rcases List.mem_cons.mp h with rfl | ht
    · exact le_max_left _ _
    · exact le_trans (ih ht) (le_max_right _ _)

/-- Helper: `foldr max 0` of a list is zero or one of its members. -/
theorem foldr_max_zero_or_mem : ∀ (L : List ℕ), L.foldr max 0 = 0 ∨ L.foldr max 0 ∈ L := by
  intro L
  induction L with
  | nil => left; rfl
  | cons a t ih =>
    rw [List.foldr_cons]
    rcases max_choice a (t.foldr max 0) with h | h
    · right; rw [h]; exact List.mem_cons_self a t
    · rw [h]
      rcases ih with h0 | hm
      · left; exact h0
      · right; exact List.mem_cons_of_mem _ hm

/-- Helper: each multiplicity is at most `maxCount`. -/
theorem count_le_maxCount {l : List ℕ} {y : ℕ} (hy : y ∈ l) : l.count y ≤ maxCount l :=
  le_foldr_max (List.mem_map_of_mem (fun x => l.count x) hy)

/-- Helper: on a nonempty list, `maxCount` is attained. -/
theorem maxCount_attained {l : List ℕ} (h : l ≠ []) : ∃ x ∈ l, l.count x = maxCount l := by
  rcases foldr_max_zero_or_mem (l.map fun x => l.count x) with h0 | hm
  · exfalso
    cases l with
    | nil => exact h rfl
    | cons a t =>
      have h1 : (a :: t).count a ≤ maxCount (a :: t) :=
        count_le_maxCount (List.mem_cons_self a t)
      rw [maxCount] at *
      rw [h0] at h1
      simp [List.count_cons_self] at h1
  · rcases List.mem_map.mp hm with ⟨x, hx, hcx⟩
    exact ⟨x, hx, hcx⟩

/-- Helper: `find?` returns the earliest position at which the predicate
holds: any other member satisfying the predicate sits at an index at
least as large. -/
theorem find?_earliest {p : ℕ → Bool} :
    ∀ {l : List ℕ} {x y : ℕ}, l.find? p = some x → y ∈ l → p y = true →
      l.indexOf x ≤ l.indexOf y := by
  intro l
  induction l with
  | nil => intro x y hf _ _; simp at hf
  | cons a t ih =>
    intro x y hf hy hpy
    by_cases hpa : p a = true
    · rw [List.find?_cons_of_pos _ hpa] at hf
      cases hf
      simp [List.indexOf_cons_self]
    · rw [List.find?_cons_of_neg _ hpa] at hf
      have hya : y ≠ a := fun h => hpa (h ▸ hpy)
      have hxa : x ≠ a := fun h => hpa (h ▸ List.find?_some hf)
      have hyt : y ∈ t := by
        rcases List.mem_cons.mp hy with rfl | hvt
        · exact absurd rfl hya
        · exact hvt
      rw [List.indexOf_cons_ne _ (Ne.symm hxa), List.indexOf_cons_ne _ (Ne.symm hya)]
      exact Nat.succ_le_succ (ih hf hyt hpy)

/-- C2 counterexample: a training store whose sample 1 has the ten
answer ids `[7,7,7,7,7,3,3,3,3,3]` (ids 7 and 3 tied at multiplicity 5).
`__getitem__` computes consensus id 7 — the id appearing first, not the
numerically smallest of the tied ids, which is 3. -/
theorem C2_tie_break_counterexample :
    getItem (mkDataset "d"
      [⟨"img0", "q", ["w0", "w1", "w2", "w3", "w4", "w5", "w6", "w7", "w0", "w0"]⟩,
       ⟨"img1", "q", ["w7", "w7", "w7", "w7", "w7", "w3", "w3", "w3", "w3", "w3"]⟩] true) 1 =
      some (.withAnswer "d/img1" "q" [7, 7, 7, 7, 7, 3, 3, 3, 3, 3] 7) ∧
    [7, 7, 7, 7, 7, 3, 3, 3, 3, 3].count 3 = [7, 7, 7, 7, 7, 3, 3, 3, 3, 3].count 7 ∧
    (3 : ℕ) < 7 ∧ (7 : ℕ) ≠ 3 := by
  refine ⟨by decide, by decide, by decide, by decide⟩

/-- C2 (amended): for every nonempty id sequence, the consensus id
computed by `mode(answers)` is the member with maximal multiplicity
whose index (first occurrence) in the sequence is smallest — ties at
maximal frequency are broken by order of first appearance, not by
numeric value. -/
theorem C2_mode_first_of_maximal (l : List ℕ) (h : l ≠ []) :
    ∃ x, pyMode l = some x ∧ x ∈ l ∧ (∀ y ∈ l, l.count y ≤ l.count x) ∧
      ∀ y ∈ l, l.count y = l.count x → l.indexOf x ≤ l.indexOf y := by
  obtain ⟨m, hm, hcm⟩ := maxCount_attained h
  have hfind : (l.find? fun x => l.count x == maxCount l).isSome :=
    List.find?_isSome.mpr ⟨m, hm, by simp [hcm]⟩
  obtain ⟨x, hx⟩ := Option.isSome_iff_exists.mp hfind
  have hpx : l.count x = maxCount l := by simpa using List.find?_some hx
  have hmemx : x ∈ l := List.mem_of_find?_eq_some hx
  refine ⟨x, hx, hmemx, ?_, ?_⟩
  · intro y hy
    rw [hpx]
    exact count_le_maxCount hy
  · intro y hy hcy
    exact find?_earliest hx hy (by simp [hcy, hpx])

/-- C2 witness: on the spec's own example `[3,3,7,7]` the characterized
consensus id exists (and is 3 because 3 appears first). -/
theorem C2_mode_first_of_maximal_witness :
    ∃ x, pyMode [3, 3, 7, 7] = some x ∧ x ∈ [3, 3, 7, 7] ∧
      (∀ y ∈ [3, 3, 7, 7], List.count y [3, 3, 7, 7] ≤ List.count x [3, 3, 7, 7]) ∧
      ∀ y ∈ [3, 3, 7, 7], List.count y [3, 3, 7, 7] = List.count x [3, 3, 7, 7] →
        List.indexOf x [3, 3, 7, 7] ≤ List.indexOf y [3, 3, 7, 7] :=
  C2_mode_first_of_maximal [3, 3, 7, 7] (by decide)

end VQA

namespace VQA

/-! ## Dataset claims C5, C8, C9 -/

/-- Helper: a failing dictionary lookup for any listed answer makes the
whole comprehension of line 143 fail. -/
theorem lookupAnswers_eq_none {a2i : List (String × ℕ)} {as : List String} {a : String}
    (ha : a ∈ as) (hm : a2i.lookup (process_text a) = none) :
    lookupAnswers a2i as = none := by
  induction as with
  | nil => cases ha
  | cons b t ih =>
    rcases List.mem_cons.mp ha with rfl | hat
    · rw [lookupAnswers, hm]
    · rw [lookupAnswers, ih hat]
      cases a2i.lookup (process_text b) <;> rfl

/-- C5: for a training-mode store (`answer = true`), if the normalized
form of one of the i-th sample's raw answers is not a key of the frozen
answer index, `__getitem__` fails (the dictionary access of line 143
raises `KeyError`, a `LookupError`, modelled as `none`): the answer is
never silently mapped to an unknown bucket. -/
theorem C5_missing_vocabulary_fails (ds : VQADataset) (i : ℕ) (s : Sample) (a : String)
    (hdf : ds.df[i]? = some s) (hans : ds.answer = true) (ha : a ∈ s.answers)
    (hmiss : ds.answer2idx.lookup (process_text a) = none) :
    getItem ds i = none := by
  unfold getItem
  simp only [hdf, hans, if_true, lookupAnswers_eq_none ha hmiss]

/-- C5 witness: a validation-mode store built over the unseen answer
`novel`, with its dictionaries replaced via `update_dict` by those of a
training store that only ever saw `known`: item 0 fails. -/
theorem C5_missing_vocabulary_fails_witness :
    getItem (update_dict (mkDataset "dv" [⟨"im", "q", ["novel"]⟩] true)
      (mkDataset "dt" [⟨"im", "q", ["known"]⟩] true)) 0 = none :=
  C5_missing_vocabulary_fails
    (update_dict (mkDataset "dv" [⟨"im", "q", ["novel"]⟩] true)
      (mkDataset "dt" [⟨"im", "q", ["known"]⟩] true))
    0 ⟨"im", "q", ["novel"]⟩ "novel" (by decide) (by decide) (by decide) (by decide)

/-- C9: the question component returned by `__getitem__` is the raw
question string exactly as stored in the data frame (line 135); the
normalizer is not applied to the delivered question. -/
theorem C9_question_returned_raw (ds : VQADataset) (i : ℕ) (s : Sample) (it : Item)
    (hdf : ds.df[i]? = some s) (hit : getItem ds i = some it) :
    itemQuestion it = s.question := by
  unfold getItem at hit
  simp only [hdf] at hit
  cases hb : ds.answer with
  | false =>
    simp only [hb, Bool.false_eq_true, if_false] at hit
    cases hit
    rfl
  | true =>
    simp only [hb, if_true] at hit
    rcases h1 : lookupAnswers ds.answer2idx s.answers with _ | ids
    · simp only [h1] at hit
      cases hit
    · simp only [h1] at hit
      rcases h2 : pyMode ids with _ | m
      · simp only [h2] at hit
        cases hit
      · simp only [h2] at hit
        cases hit
        rfl

/-- C9 witness: a store whose only sample asks `What is this?` returns
that exact raw string, which differs from its normalized form
`what is this`. -/
theorem C9_question_returned_raw_witness :
    itemQuestion (Item.noAnswer "d/im" "What is this?") = "What is this?" ∧
    process_text "What is this?" ≠ "What is this?" :=
  ⟨C9_question_returned_raw (mkDataset "d" [⟨"im", "What is this?", []⟩] false) 0
      ⟨"im", "What is this?", []⟩ (Item.noAnswer "d/im" "What is this?") (by decide) (by decide),
   by decide⟩

/-- Helper: a successful `List.lookup` exhibits a member pair. -/
theorem lookup_mem {l : List (String × ℕ)} {k : String} {v : ℕ}
    (h : l.lookup k = some v) : (k, v) ∈ l := by
  induction l with
  | nil => simp at h
  | cons p t ih =>
    rcases p with ⟨a, b⟩
    by_cases hk : k = a
    · subst hk
      simp only [List.lookup, beq_self_eq_true] at h
      cases h
      exact List.mem_cons_self _ _
    · simp only [List.lookup, beq_eq_false_iff_ne.mpr hk] at h
      exact List.mem_cons_of_mem _ (ih h)

/-- Helper: in an association list with no duplicate keys, membership
determines the lookup result. -/
theorem lookup_of_mem_of_nodup_keys {l : List (ℕ × String)} {k : ℕ} {v : String}
    (hnd : (l.map Prod.fst).Nodup) (hm : (k, v) ∈ l) : l.lookup k = some v := by
  induction l with
  | nil => cases hm
  | cons p t ih =>
    rcases p with ⟨a, b⟩
    rw [List.map_cons, List.nodup_cons] at hnd
    rcases List.mem_cons.mp hm with h | h
    · cases h
      simp only [List.lookup, beq_self_eq_true]
    · have hka : k ≠ a := by
        rintro rfl
        exact hnd.1 (by simpa using List.mem_map_of_mem Prod.fst h)
      simp only [List.lookup, beq_eq_false_iff_ne.mpr hka]
      exact ih hnd.2 h

/-- Helper: the ids of a built index, in order, are `0, 1, 2, ...`. -/
theorem foldl_addWord_snd : ∀ (ws : List String) (m : List (String × ℕ)),
    m.map Prod.snd = List.range m.length →
    (ws.foldl addWord m).map Prod.snd = List.range (ws.foldl addWord m).length := by
  intro ws
  induction ws with
  | nil => intro m h; exact h
  | cons w t ih =>
    intro m h
    rw [List.foldl_cons]
    apply ih
    rw [addWord]
    split
    · exact h
    · rw [List.map_append, List.length_append, h]
      simp [List.range_succ]

/-- Helper: ids of `buildIndex` are exactly `0, ..., n-1` in order. -/
theorem buildIndex_snd (ws : List String) :
    (buildIndex ws).map Prod.snd = List.range (buildIndex ws).length :=
  foldl_addWord_snd ws [] rfl

/-- Helper: the inverse dictionary inverts every entry of a built
index: ids are pairwise distinct, so each id keys exactly its word. -/
theorem buildIndex_roundtrip {ws : List String} {w : String} {i : ℕ}
    (h : (buildIndex ws).lookup w = some i) :
    (invertIndex (buildIndex ws)).lookup i = some w := by
  have hmem : (w, i) ∈ buildIndex ws := lookup_mem h
  have hinv : (i, w) ∈ invertIndex (buildIndex ws) :=
    List.mem_map.mpr ⟨(w, i), hmem, rfl⟩
  apply lookup_of_mem_of_nodup_keys _ hinv
  have hfst : (invertIndex (buildIndex ws)).map Prod.fst = (buildIndex ws).map Prod.snd := by
    simp [invertIndex, Function.comp]
  rw [hfst, buildIndex_snd]
  exact List.nodup_range _

/-- C8: vocabulary round-trip after `__init__` of a training store
(`answer = true`): every word inserted into `question2idx` (and every
phrase inserted into `answer2idx`) is recovered exactly by the inverse
dictionary: `idx2word[word2idx[w]] = w` for both indices. -/
theorem C8_vocabulary_roundtrip (dir : String) (df : List Sample) (w : String) (i : ℕ) :
    ((mkDataset dir df true).question2idx.lookup w = some i →
      (mkDataset dir df true).idx2question.lookup i = some w) ∧
    ((mkDataset dir df true).answer2idx.lookup w = some i →
      (mkDataset dir df true).idx2answer.lookup i = some w) := by
  constructor <;> intro hl
  · exact buildIndex_roundtrip hl
  · exact buildIndex_roundtrip hl

end VQA

namespace VQA

/-! ## Character membership across the normalizer steps (for C3, C6, C7) -/

/-- Helper: characters of a replaced string come from the input or the
replacement. -/
theorem mem_replaceGo {c : Char} (p r : List Char) :
    ∀ (s : List Char) (skip : ℕ), c ∈ replaceGo p r skip s → c ∈ s ∨ c ∈ r := by
  intro s
  induction s with
  | nil => intro skip h; cases skip <;> simp [replaceGo] at h
  | cons a t ih =>
    intro skip h
    cases skip with
    | succ k =>
      rw [replaceGo] at h
      rcases ih k h with hs | hr
      · exact Or.inl (List.mem_cons_of_mem _ hs)
      · exact Or.inr hr
    | zero =>
      rw [replaceGo] at h
      split at h
      · rcases List.mem_append.mp h with hr | hrec
        · exact Or.inr hr
        · rcases ih _ hrec with hs | hr
          · exact Or.inl (List.mem_cons_of_mem _ hs)
          · exact Or.inr hr
      · rcases List.mem_cons.mp h with rfl | hrec
        · exact Or.inl (List.mem_cons_self _ _)
        · rcases ih _ hrec with hs | hr
          · exact Or.inl (List.mem_cons_of_mem _ hs)
          · exact Or.inr hr

/-- Helper: membership form of `mem_replaceGo` at the top level. -/
theorem mem_replaceAll {c : Char} {p r s : List Char} (h : c ∈ replaceAll p r s) :
    c ∈ s ∨ c ∈ r :=
  mem_replaceGo p r s 0 h

/-- Helper: characters after the sequential replacement loops come from
the input or from one of the replacement strings. -/
theorem mem_applyReplacements {c : Char} (ps : List (String × String)) :
    ∀ (s : List Char), c ∈ applyReplacements ps s →
      c ∈ s ∨ ∃ pr ∈ ps, c ∈ pr.2.data := by
  induction ps with
  | nil => intro s h; exact Or.inl h
  | cons pr t ih =>
    intro s h
    rw [applyReplacements, List.foldl_cons] at h
    rcases ih _ h with hs | ⟨q, hq, hc⟩
    · rcases mem_replaceAll hs with h1 | h2
      · exact Or.inl h1
      · exact Or.inr ⟨pr, List.mem_cons_self _ _, h2⟩
    · exact Or.inr ⟨q, List.mem_cons_of_mem _ hq, hc⟩

/-- Helper: the period step only deletes characters. -/
theorem mem_periodGo {c : Char} :
    ∀ (prev : Option Char) (s : List Char), c ∈ periodGo prev s → c ∈ s := by
  intro prev s
  induction s generalizing prev with
  | nil => intro h; simp [periodGo] at h
  | cons a t ih =>
    intro h
    rw [periodGo] at h
    split at h
    · exact List.mem_cons_of_mem _ (ih _ h)
    · rcases List.mem_cons.mp h with rfl | hr
      · exact List.mem_cons_self _ _
      · exact List.mem_cons_of_mem _ (ih _ hr)

/-- Helper: the article step only deletes characters (they come from
the pending run or from the rest of the input). -/
theorem mem_articleGo2 {c : Char} :
    ∀ (s acc : List Char), c ∈ articleGo2 acc s → c ∈ acc ∨ c ∈ s := by
  intro s
  induction s with
  | nil =>
    intro acc h
    simp only [articleGo2] at h
    split at h
    · cases h
    · exact Or.inl h
  | cons a t ih =>
    intro acc h
    simp only [articleGo2] at h
    split at h
    · rcases ih _ h with hacc | ht
      · rcases List.mem_append.mp hacc with h1 | h2
        · exact Or.inl h1
        · have : c = a := by simpa using h2
          exact Or.inr (this ▸ List.mem_cons_self a t)
      · exact Or.inr (List.mem_cons_of_mem _ ht)
    · rcases List.mem_append.mp h with hk | hrest
      · split at hk
        · cases hk
        · exact Or.inl hk
      · rcases List.mem_cons.mp hrest with rfl | hrec
        · exact Or.inr (List.mem_cons_self _ _)
        · rcases ih _ hrec with h1 | h2
          · cases h1
          · exact Or.inr (List.mem_cons_of_mem _ h2)

/-- Helper: membership form of `mem_articleGo2` at the top level. -/
theorem mem_articleGo {c : Char} {s : List Char} (h : c ∈ articleGo s) : c ∈ s := by
  rcases mem_articleGo2 s [] h with h1 | h2
  · cases h1
  · exact h2

/-- Helper: characters of the punctuation step come from the input or
are spaces. -/
theorem mem_punctStep {c : Char} {s : List Char} (h : c ∈ punctStep s) :
    c ∈ s ∨ c = ' ' := by
  rcases List.mem_map.mp h with ⟨d, hd, hc⟩
  by_cases hk : isKeptChar d = true
  · rw [if_pos hk] at hc; exact Or.inl (hc ▸ hd)
  · rw [if_neg hk] at hc; exact Or.inr hc.symm

/-- Helper: characters of the whitespace collapse come from the input or
are spaces. -/
theorem mem_spaceGo2 {c : Char} :
    ∀ (s : List Char) (b : Bool), c ∈ spaceGo2 b s → c ∈ s ∨ c = ' ' := by
  intro s
  induction s with
  | nil => intro b h; simp [spaceGo2] at h
  | cons a t ih =>
    intro b h
    simp only [spaceGo2] at h
    split at h
    · split at h
      · rcases ih _ h with hs | hc
        · exact Or.inl (List.mem_cons_of_mem _ hs)
        · exact Or.inr hc
      · rcases List.mem_cons.mp h with rfl | hr
        · exact Or.inr rfl
        · rcases ih _ hr with hs | hc
          · exact Or.inl (List.mem_cons_of_mem _ hs)
          · exact Or.inr hc
    · rcases List.mem_cons.mp h with rfl | hr
      · exact Or.inl (List.mem_cons_self _ _)
      · rcases ih _ hr with hs | hc
        · exact Or.inl (List.mem_cons_of_mem _ hs)
        · exact Or.inr hc

/-- Helper: stripping only deletes characters. -/
theorem mem_pyStrip {c : Char} {s : List Char} (h : c ∈ pyStrip s) : c ∈ s := by
  rw [pyStrip] at h
  rw [List.mem_reverse] at h
  have h2 := List.dropWhile_subset _ h
  rw [List.mem_reverse] at h2
  exact List.dropWhile_subset _ h2

/-- Helper: `Char.toLower` is idempotent. -/
theorem toLower_toLower (c : Char) : c.toLower.toLower = c.toLower := by
  unfold Char.toLower
  by_cases h : c.toNat ≥ 65 ∧ c.toNat ≤ 90
  · rw [if_pos h]
    have hv : (c.toNat + 32).isValidChar := Or.inl (by omega)
    have ht : (Char.ofNat (c.toNat + 32)).toNat = c.toNat + 32 := by
      rw [Char.ofNat, dif_pos hv]
      rfl
    rw [if_neg]
    rw [ht]
    omega
  · rw [if_neg h, if_neg h]

end VQA

namespace VQA

/-! ## Step-identity lemmas on already-normalized text (for C3, C7) -/

/-- Helper: the period step is the identity on period-free text. -/
theorem periodGo_id {s : List Char} (h : '.' ∉ s) : ∀ prev, periodGo prev s = s := by
  induction s with
  | nil => intro prev; rfl
  | cons a t ih =>
    intro prev
    have ha : (a == '.') = false :=
      beq_eq_false_iff_ne.mpr (fun e => h (e ▸ List.mem_cons_self a t))
    have ht : '.' ∉ t := fun hm => h (List.mem_cons_of_mem _ hm)
    simp [periodGo, ha, ih ht]

/-- Helper: mapping a function that fixes every member is the identity. -/
theorem map_id_of_mem {f : Char → Char} :
    ∀ {s : List Char}, (∀ c ∈ s, f c = c) → s.map f = s := by
  intro s
  induction s with
  | nil => intro _; rfl
  | cons a t ih =>
    intro h
    rw [List.map_cons, h a (List.mem_cons_self _ _), ih (fun c hc => h c (List.mem_cons_of_mem _ hc))]

/-- Helper: lowering is the identity when every character is fixed. -/
theorem lowerStep_id {s : List Char} (h : ∀ c ∈ s, Char.toLower c = c) : lowerStep s = s :=
  map_id_of_mem h

/-- Helper: the punctuation step is the identity when every character is
in the kept class. -/
theorem punctStep_id {s : List Char} (h : ∀ c ∈ s, isKeptChar c = true) : punctStep s = s := by
  rw [punctStep]
  apply map_id_of_mem
  intro c hc
  rw [if_pos (h c hc)]

/-- Helper: on comma-free text the whitespace-comma worker emits its
pending run unchanged followed by the rest of the text. -/
theorem commaGo2_of_not_mem : ∀ {s : List Char}, ',' ∉ s →
    ∀ pend, commaGo2 pend s = pend ++ s := by
  intro s
  induction s with
  | nil => intro _ pend; simp [commaGo2]
  | cons a t ih =>
    intro h pend
    have ha : (a == ',') = false :=
      beq_eq_false_iff_ne.mpr (fun e => h (e ▸ List.mem_cons_self a t))
    have ht : ',' ∉ t := fun hm => h (List.mem_cons_of_mem _ hm)
    simp only [commaGo2]
    by_cases hsp : isSpaceChar a = true
    · rw [if_pos hsp, ih ht]
      simp
    · rw [if_neg hsp, ha]
      simp only [Bool.false_eq_true, if_false]
      rw [ih ht]
      simp

/-- Helper: the whitespace-comma step is the identity on comma-free
text. -/
theorem commaGo_id {s : List Char} (h : ',' ∉ s) : commaGo s = s := by
  rw [commaGo, commaGo2_of_not_mem h]
  simp

/-- Helper: the collapse worker ignores its flag when the text does not
start with whitespace. -/
theorem spaceGo2_flag_eq {s : List Char}
    (h : ∀ d, s.head? = some d → isSpaceChar d = false) :
    spaceGo2 true s = spaceGo2 false s := by
  cases s with
  | nil => rfl
  | cons a t =>
    have ha : isSpaceChar a = false := h a rfl
    simp [spaceGo2, ha]

/-- Helper: the whitespace collapse is the identity on text whose
whitespace characters are single plain spaces. -/
theorem spaceGo2_id : ∀ (s : List Char),
    (∀ c ∈ s, isSpaceChar c = true → c = ' ') → List.Chain' noTwoSpaces s →
    spaceGo2 false s = s := by
  intro s
  induction s with
  | nil => intro _ _; rfl
  | cons a t ih =>
    intro hsp hch
    simp only [spaceGo2]
    by_cases ha : isSpaceChar a = true
    · rw [if_pos ha, if_neg (by simp)]
      have ha2 : a = ' ' := hsp a (List.mem_cons_self _ _) ha
      have hth : ∀ d, t.head? = some d → isSpaceChar d = false := by
        intro d hd
        cases t with
        | nil => simp at hd
        | cons b t2 =>
          have hR : noTwoSpaces a b := (List.chain'_cons.mp hch).1
          have hbd : b = d := by simpa using hd
          subst hbd
          cases hb : isSpaceChar b
          · rfl
          · exact absurd ⟨ha, hb⟩ hR
      rw [spaceGo2_flag_eq hth, ih (fun c hc hs => hsp c (List.mem_cons_of_mem _ hc) hs)
        hch.tail, ha2]
    · rw [if_neg ha, ih (fun c hc hs => hsp c (List.mem_cons_of_mem _ hc) hs) hch.tail]

/-- Helper: dropping while the predicate holds is the identity when the
head fails the predicate. -/
theorem dropWhile_eq_self_of_head {p : Char → Bool} {l : List Char}
    (h : ∀ d, l.head? = some d → p d = false) : l.dropWhile p = l := by
  cases l with
  | nil => rfl
  | cons a t => exact List.dropWhile_cons_of_neg (by simp [h a rfl])

/-- Helper: stripping is the identity on text with no leading or
trailing whitespace. -/
theorem pyStrip_id {s : List Char}
    (h1 : ∀ d, s.head? = some d → isSpaceChar d = false)
    (h2 : ∀ d, s.getLast? = some d → isSpaceChar d = false) : pyStrip s = s := by
  have e1 : s.dropWhile isSpaceChar = s := dropWhile_eq_self_of_head h1
  have e2 : s.reverse.dropWhile isSpaceChar = s.reverse := by
    apply dropWhile_eq_self_of_head
    intro d hd
    rw [List.head?_reverse] at hd
    exact h2 d hd
  rw [pyStrip, e1, e2, List.reverse_reverse]

/-! ## Shape of the normalizer's output (for C3, C7) -/

/-- Helper: every character surviving the punctuation step is in the
kept class. -/
theorem punctStep_kept {s : List Char} : ∀ c ∈ punctStep s, isKeptChar c = true := by
  intro c hc
  rcases List.mem_map.mp hc with ⟨d, _, hcd⟩
  by_cases hk : isKeptChar d = true
  · rw [if_pos hk] at hcd; exact hcd ▸ hk
  · rw [if_neg hk] at hcd; rw [← hcd]; decide

/-- Helper: every whitespace character the collapse emits is a plain
space. -/
theorem spaceGo2_space_eq {c : Char} :
    ∀ (s : List Char) (b : Bool), c ∈ spaceGo2 b s → isSpaceChar c = true → c = ' ' := by
  intro s
  induction s with
  | nil => intro b hc _; simp [spaceGo2] at hc
  | cons a t ih =>
    intro b hc hsc
    simp only [spaceGo2] at hc
    by_cases ha : isSpaceChar a = true
    · rw [if_pos ha] at hc
      split at hc
      · exact ih _ hc hsc
      · rcases List.mem_cons.mp hc with rfl | hr
        · rfl
        · exact ih _ hr hsc
    · rw [if_neg ha] at hc
      rcases List.mem_cons.mp hc with rfl | hr
      · exact absurd hsc ha
      · exact ih _ hr hsc

/-- Helper: the collapse started inside a run emits nothing until the
first non-whitespace character, so its head is never whitespace. -/
theorem spaceGo2_true_head :
    ∀ (s : List Char) (d : Char), (spaceGo2 true s).head? = some d →
      isSpaceChar d = false := by
  intro s
  induction s with
  | nil => intro d hd; simp [spaceGo2] at hd
  | cons a t ih =>
    intro d hd
    simp only [spaceGo2] at hd
    by_cases ha : isSpaceChar a = true
    · rw [if_pos ha, if_true] at hd
      exact ih d hd
    · rw [if_neg ha] at hd
      have had : a = d := by simpa using hd
      subst had
      simpa using ha

/-- Helper: the collapse output never has two adjacent whitespace
characters. -/
theorem spaceGo2_chain :
    ∀ (s : List Char) (b : Bool), List.Chain' noTwoSpaces (spaceGo2 b s) := by
  intro s
  induction s with
  | nil => intro b; simp [spaceGo2]
  | cons a t ih =>
    intro b
    simp only [spaceGo2]
    by_cases ha : isSpaceChar a = true
    · rw [if_pos ha]
      cases b with
      | true =>
        rw [if_pos rfl]
        exact ih true
      | false =>
        rw [if_neg (by simp)]
        rw [List.chain'_cons']
        refine ⟨?_, ih true⟩
        intro y hy
        have hns := spaceGo2_true_head t y (Option.mem_def.mp hy)
        intro hx
        rw [hns] at hx
        cases hx.2
    · rw [if_neg ha, List.chain'_cons']
      exact ⟨fun y _ hab => ha hab.1, ih false⟩

/-- Helper: `noTwoSpaces` chains survive reversal. -/
theorem chain_noTwoSpaces_reverse {l : List Char} (h : List.Chain' noTwoSpaces l) :
    List.Chain' noTwoSpaces l.reverse := by
  rw [List.chain'_reverse]
  exact h.imp (fun a b hab hx => hab ⟨hx.2, hx.1⟩)

/-- Helper: a stripped string does not start with whitespace. -/
theorem pyStrip_head {s : List Char} :
    ∀ d, (pyStrip s).head? = some d → isSpaceChar d = false := by
  intro d hd
  rw [pyStrip, List.head?_reverse] at hd
  have hlast : ((s.dropWhile isSpaceChar).reverse).getLast? = some d := by
    conv_lhs => rw [← List.takeWhile_append_dropWhile isSpaceChar
      (s.dropWhile isSpaceChar).reverse]
    rw [List.getLast?_append, hd]
    rfl
  rw [List.getLast?_reverse] at hlast
  have hh := List.head?_dropWhile_not isSpaceChar s
  rw [hlast] at hh
  exact hh

/-- Helper: a stripped string does not end with whitespace. -/
theorem pyStrip_getLast {s : List Char} :
    ∀ d, (pyStrip s).getLast? = some d → isSpaceChar d = false := by
  intro d hd
  rw [pyStrip, List.getLast?_reverse] at hd
  have hh := List.head?_dropWhile_not isSpaceChar (s.dropWhile isSpaceChar).reverse
  rw [hd] at hh
  exact hh

/-- Helper: stripping preserves the no-two-adjacent-spaces shape. -/
theorem pyStrip_chain {s : List Char} (h : List.Chain' noTwoSpaces s) :
    List.Chain' noTwoSpaces (pyStrip s) := by
  rw [pyStrip]
  apply chain_noTwoSpaces_reverse
  apply List.Chain'.suffix _ (List.dropWhile_suffix _)
  apply chain_noTwoSpaces_reverse
  exact List.Chain'.suffix h (List.dropWhile_suffix _)

/-- Helper: `pyStrip_chain`, packaged over `Collapsed`. -/
theorem pyStrip_collapsed {s : List Char} (h : Collapsed s) : Collapsed (pyStrip s) := by
  unfold Collapsed at h ⊢
  exact pyStrip_chain h

end VQA

namespace VQA

/-- Helper: membership form of `mem_spaceGo2` at the top level. -/
theorem mem_spaceGo {c : Char} {s : List Char} (h : c ∈ spaceGo s) : c ∈ s ∨ c = ' ' :=
  mem_spaceGo2 s false h

/-- Helper: `spaceGo2_space_eq` at the top level. -/
theorem spaceGo_space_eq (s : List Char) :
    ∀ c ∈ spaceGo s, isSpaceChar c = true → c = ' ' :=
  fun _ hc hs => spaceGo2_space_eq s false hc hs

/-- Helper: `spaceGo2_chain` at the top level. -/
theorem spaceGo_collapsed (s : List Char) : Collapsed (spaceGo s) := by
  unfold Collapsed
  exact spaceGo2_chain s false

/-- Helper: `spaceGo2_id` at the top level. -/
theorem spaceGo_id {s : List Char}
    (h1 : ∀ c ∈ s, isSpaceChar c = true → c = ' ')
    (h2 : Collapsed s) : spaceGo s = s := by
  unfold Collapsed at h2
  exact spaceGo2_id s h1 h2

/-- Helper: the comma step is dead in the pipeline — the punctuation
step has already removed every comma — so the normalizer's tail is
collapse-and-strip of the punctuation step's output. -/
theorem process_list_eq (s : List Char) :
    process_list s = pyStrip (spaceGo (punctStep (applyReplacements contractions
      (articleGo (periodStep (applyReplacements num_word_to_digit (lowerStep s))))))) := by
  rw [process_list, spaceStep, commaGo_id]
  intro hm
  exact absurd (punctStep_kept _ hm) (by decide)

/-- Helper: every character of the normalizer's output is in the kept
class `[\w\s':]`. -/
theorem process_list_kept {s : List Char} : ∀ c ∈ process_list s, isKeptChar c = true := by
  intro c hc
  rw [process_list_eq] at hc
  rcases mem_spaceGo (mem_pyStrip hc) with hv | hsp
  · exact punctStep_kept _ hv
  · rw [hsp]; decide

/-- Helper: every whitespace character of the normalizer's output is a
plain space. -/
theorem process_list_space_eq {s : List Char} :
    ∀ c ∈ process_list s, isSpaceChar c = true → c = ' ' := by
  intro c hc hs
  rw [process_list_eq] at hc
  exact spaceGo_space_eq _ _ (mem_pyStrip hc) hs

/-- Helper: the normalizer's output has no two adjacent whitespace
characters. -/
theorem process_list_chain {s : List Char} : Collapsed (process_list s) := by
  rw [process_list_eq]
  exact pyStrip_collapsed (spaceGo_collapsed _)

/-- Helper: the normalizer's output does not start with whitespace. -/
theorem process_list_head {s : List Char} :
    ∀ d, (process_list s).head? = some d → isSpaceChar d = false := by
  intro d hd
  rw [process_list_eq] at hd
  exact pyStrip_head d hd

/-- Helper: the normalizer's output does not end with whitespace. -/
theorem process_list_getLast {s : List Char} :
    ∀ d, (process_list s).getLast? = some d → isSpaceChar d = false := by
  intro d hd
  rw [process_list_eq] at hd
  exact pyStrip_getLast d hd

/-- Helper: every character of the normalizer's output is fixed by
lowercasing: the first step lowers everything and the later steps only
insert lowercase replacement characters, spaces or commas. -/
theorem process_list_lower {s : List Char} :
    ∀ c ∈ process_list s, Char.toLower c = c := by
  have hnum : ∀ pr ∈ num_word_to_digit, ∀ c ∈ pr.2.data, Char.toLower c = c := by decide
  have hctr : ∀ pr ∈ contractions, ∀ c ∈ pr.2.data, Char.toLower c = c := by decide
  intro c hc
  rw [process_list_eq] at hc
  rcases mem_spaceGo (mem_pyStrip hc) with hv | hsp
  swap
  · rw [hsp]; decide
  rcases mem_punctStep hv with hu | hsp
  swap
  · rw [hsp]; decide
  rcases mem_applyReplacements _ _ hu with h1 | ⟨pr, hpr, hcr⟩
  swap
  · exact hctr pr hpr c hcr
  have h2 := mem_periodGo _ _ (mem_articleGo h1)
  rcases mem_applyReplacements _ _ h2 with h3 | ⟨pr, hpr, hcr⟩
  swap
  · exact hnum pr hpr c hcr
  rcases List.mem_map.mp h3 with ⟨d, _, hcd⟩
  rw [← hcd]
  exact toLower_toLower d

/-! ## Claims C3, C6, C7 -/

/-- Helper: the character list of a normalized string. -/
theorem process_text_data (s : String) : (process_text s).data = process_list s.data := by
  rw [process_text]

/-- Helper: a replacement pass is the identity on text in which its
pattern does not occur. -/
theorem replaceGo_id_of_not_infix {p r : List Char} :
    ∀ {s : List Char}, ¬ p <:+: s → replaceGo p r 0 s = s := by
  intro s
  induction s with
  | nil => intro _; rfl
  | cons a t ih =>
    intro h
    have hc : ¬(p ≠ [] ∧ p.isPrefixOf (a :: t)) := by
      rintro ⟨-, hpre⟩
      exact h (List.IsPrefix.isInfix (List.isPrefixOf_iff_prefix.mp hpre))
    rw [replaceGo, if_neg hc, ih (fun hinf => h (List.infix_cons hinf))]

/-- Helper: the sequential replacement loop is the identity on text in
which none of its patterns occurs; together with
`replaceGo_id_of_not_infix` this backs the sufficient condition of the
amended idempotence claim. -/
theorem applyReplacements_id_of_no_occurrence {ps : List (String × String)} :
    ∀ {s : List Char}, (∀ pr ∈ ps, ¬ pr.1.data <:+: s) → applyReplacements ps s = s := by
  induction ps with
  | nil => intro s _; rfl
  | cons pr t ih =>
    intro s h
    rw [applyReplacements, List.foldl_cons,
      show replaceAll pr.1.data pr.2.data s = s from
        replaceGo_id_of_not_infix (h pr (List.mem_cons_self _ _))]
    exact ih (fun q hq => h q (List.mem_cons_of_mem _ hq))

/-- C3 counterexample: the normalizer is not idempotent.  In `tw.o` the
period-removal step joins the letters into `two`, which the first pass
leaves alone (the number-word pass ran before the period was removed)
but a second pass turns into `2`. -/
theorem C3_not_idempotent_counterexample :
    process_text (process_text "tw.o") ≠ process_text "tw.o" := by decide

/-- C3 (amended): the normalizer is idempotent on every string whose
normalized form is left unchanged by the three word-rewriting steps —
number-word replacement, article removal, and contraction expansion (in
particular whenever the normalized form contains no number word, no
standalone article and no apostrophe-less contraction).  All other
steps — lowercasing, period removal, punctuation replacement, the
whitespace-comma rule and whitespace collapsing/stripping — are always
the identity on normalized output.  Full idempotence fails: period
removal can join letters into a number word (`tw.o` → `two` → `2`), and
contraction expansion can split off a new standalone article
(`donthe` → `don'the`, whose second pass drops `the`). -/
theorem C3_idempotent_on_stable_strings (s : String)
    (h1 : applyReplacements num_word_to_digit (process_text s).data = (process_text s).data)
    (h2 : articleGo (process_text s).data = (process_text s).data)
    (h3 : applyReplacements contractions (process_text s).data = (process_text s).data) :
    process_text (process_text s) = process_text s := by
  rw [process_text_data] at h1 h2 h3
  have h1' := h1
  have h2' := h2
  have h3' := h3
  have hdot : '.' ∉ process_list s.data := fun hm =>
    absurd (process_list_kept _ hm) (by decide)
  have hcomma : ',' ∉ process_list s.data := fun hm =>
    absurd (process_list_kept _ hm) (by decide)
  have hsg : spaceGo (process_list s.data) = process_list s.data :=
    spaceGo_id process_list_space_eq process_list_chain
  have key : process_list (process_list s.data) = process_list s.data := by
    conv_lhs => rw [process_list]
    rw [lowerStep_id process_list_lower, h1', periodStep, periodGo_id hdot, h2', h3',
      punctStep_id process_list_kept, commaGo_id hcomma, spaceStep, hsg,
      pyStrip_id process_list_head process_list_getLast]
  conv_lhs => rw [process_text, process_text_data]
  conv_rhs => rw [process_text]
  exact congrArg String.mk key

/-- C3 witness: the spec's article-removal example string is stable, so
normalizing it twice equals normalizing it once. -/
theorem C3_idempotent_on_stable_strings_witness :
    process_text (process_text "a dog and the cat") = process_text "a dog and the cat" :=
  C3_idempotent_on_stable_strings "a dog and the cat" (by decide) (by decide) (by decide)

/-- C6 counterexample: the input `twone` contains the number word `two`,
yet the normalizer output `tw1` contains no `2`: the earlier `one`
replacement destroys the overlapping occurrence of `two`, so not every
occurrence of every number word is replaced by its digit form. -/
theorem C6_overlapping_occurrence_counterexample :
    "two".data <:+: "twone".data ∧ process_text "twone" = "tw1" ∧
    '2' ∉ (process_text "twone").data := by
  refine ⟨by decide, by decide, by decide⟩

/-- C6 (amended): number-word replacement is unanchored substring
replacement applied sequentially in the fixed dictionary order
`zero`…`ten`; it matches inside larger words — `someone` becomes
`some1`, `three dogs` becomes `3 dogs` — but an occurrence overlapping
an earlier-replaced word is destroyed rather than replaced
(`twone` → `tw1`). -/
theorem C6_substring_number_replacement :
    process_text "someone" = "some1" ∧ '1' ∈ (process_text "someone").data ∧
    process_text "three dogs" = "3 dogs" ∧ '3' ∈ (process_text "three dogs").data ∧
    process_text "twone" = "tw1" := by
  refine ⟨by decide, by decide, by decide, by decide, by decide⟩

/-- C7 counterexample: the full normalizer does not keep the period of
`3.14`: the punctuation step later replaces every remaining period by a
space, so `3.14` normalizes to `3 14`, which contains no period. -/
theorem C7_period_of_decimal_not_kept :
    process_text "3.14" = "3 14" ∧ '.' ∉ (process_text "3.14").data := by
  refine ⟨by decide, by decide⟩

/-- C7 (amended): the dedicated period-removal step removes exactly the
periods with no adjacent digit (it keeps the period of `3.14` and drops
the one of `dog.`), but the later punctuation step replaces every
surviving period by a space, so the output of the full normalizer never
contains a period: `dog.` normalizes to `dog` and `3.14` to `3 14`. -/
theorem C7_period_removal_step :
    (∀ s : String, '.' ∉ (process_text s).data) ∧
    periodStep "3.14".data = "3.14".data ∧ periodStep "dog.".data = "dog".data ∧
    process_text "dog." = "dog" ∧ process_text "3.14" = "3 14" := by
  refine ⟨?_, by decide, by decide, by decide, by decide⟩
  intro s hm
  rw [process_text_data] at hm
  exact absurd (process_list_kept _ hm) (by decide)

end VQA
